import Mathlib

/-!
Formal model of the Gaussian blur / sharpen core (effects.go) of the
imaging package.  float64 arithmetic is modelled by the real numbers;
8-bit image samples by naturals.  Images are width, height and a pixel
grid; only coordinates below the dimensions are meaningful.
-/

/-- An 8-bit RGBA sample quadruple (non-premultiplied NRGBA pixel). -/
@[ext]
structure RGBA where
  r : ℕ
  g : ℕ
  b : ℕ
  a : ℕ
  deriving DecidableEq

/-- A real-valued RGBA quadruple, as used by the float arithmetic inside
the convolution passes (the scanLineF working buffer). -/
@[ext]
structure RGBAF where
  r : ℝ
  g : ℝ
  b : ℝ
  a : ℝ

/-- An 8-bit image: width, height and the pixel grid. -/
structure NImage where
  w : ℕ
  h : ℕ
  pix : ℕ → ℕ → RGBA

/-- A real-valued image, the value of a pass before 8-bit quantization. -/
structure FImage where
  w : ℕ
  h : ℕ
  pix : ℕ → ℕ → RGBAF

/-- Modelled from the spec: absint, the absolute-value helper used to
index the kernel by distance (not present under src). -/
def absint (x : ℤ) : ℕ := x.natAbs

/-- Modelled from the spec: clamp rounds a float channel value to the
nearest integer and clamps it to the 8-bit range 0..255 (helper not
present under src; the spec requires clamping with rounding). -/
noncomputable def clamp (x : ℝ) : ℕ := min 255 (Int.toNat ⌊x + 1 / 2⌋)

/-- The kernel weight applied to neighbor i of center p, i.e.
kernel[absint(p-i)] as read in both passes (effects.go lines 60 and 112). -/
def kweight (kernel : List ℝ) (p i : ℕ) : ℝ :=
  kernel.getD (absint ((p : ℤ) - (i : ℤ))) 0

/-- The five running accumulators r, g, b, a, wsum of the inner
convolution loop (effects.go line 57 / 109). -/
structure ConvAcc where
  r : ℝ
  g : ℝ
  b : ℝ
  a : ℝ
  wsum : ℝ

/-- One iteration of the inner loop of blurHorizontal / blurVertical
(effects.go lines 58-67 / 110-120): read neighbor i, add its weight to
wsum and its alpha-weighted channel contributions to r, g, b, a. -/
def convStep (line : ℕ → RGBAF) (kernel : List ℝ) (p i : ℕ) (s : ConvAcc) : ConvAcc :=
  let weight := kweight kernel p i
  let v := line i
  let wa := v.a * weight
  ⟨s.r + v.r * wa, s.g + v.g * wa, s.b + v.b * wa, s.a + wa, s.wsum + weight⟩

/-- The inner loop run for m iterations starting at index lo: it visits
lo, lo+1, ..., lo+m-1 in order, starting from all-zero accumulators. -/
def convAccum (line : ℕ → RGBAF) (kernel : List ℝ) (p lo : ℕ) : ℕ → ConvAcc
  | 0 => ⟨0, 0, 0, 0, 0⟩
  | m + 1 => convStep line kernel p (lo + m) (convAccum line kernel p lo m)

/-- Per-pixel body of a 1-D convolution pass for center p on a line of
length n (effects.go lines 48-77 / 100-131): clamp the window to
[max(0,p-radius), min(n-1,p+radius)] (natural subtraction realizes the
max with 0), run the accumulation loop, divide the color channels by the
alpha sum when it is nonzero, and divide the alpha sum by the weight sum.
The result is the float value of the pixel, before 8-bit quantization. -/
noncomputable def convPixelF (line : ℕ → RGBAF) (kernel : List ℝ) (n p : ℕ) : RGBAF :=
  let radius := kernel.length - 1
  let lo := p - radius
  let hi := min (p + radius) (n - 1)
  let s := convAccum line kernel p lo (hi + 1 - lo)
  if s.a ≠ 0 then ⟨s.r / s.a, s.g / s.a, s.b / s.a, s.a / s.wsum⟩
  else ⟨s.r, s.g, s.b, s.a / s.wsum⟩

/-- The horizontal pass on real-valued data: each row is convolved
independently (effects.go blurHorizontal, before clamping to 8 bits). -/
noncomputable def blurHorizontalF (img : FImage) (kernel : List ℝ) : FImage :=
  ⟨img.w, img.h, fun x y => convPixelF (fun i => img.pix i y) kernel img.w x⟩

/-- The vertical pass on real-valued data: each column is convolved
independently (effects.go blurVertical, before clamping to 8 bits). -/
noncomputable def blurVerticalF (img : FImage) (kernel : List ℝ) : FImage :=
  ⟨img.w, img.h, fun x y => convPixelF (fun i => img.pix x i) kernel img.h y⟩

/-- Conversion of an 8-bit pixel to float samples (scanLineF[i] = float64(v)). -/
def toF (v : RGBA) : RGBAF := ⟨(v.r : ℝ), (v.g : ℝ), (v.b : ℝ), (v.a : ℝ)⟩

/-- Conversion of an 8-bit image to a real-valued image. -/
def toFImage (img : NImage) : FImage :=
  ⟨img.w, img.h, fun x y => toF (img.pix x y)⟩

/-- Quantization of a float pixel back to 8 bits: all four channels are
clamped (effects.go lines 74-77 / 128-131). -/
noncomputable def quantize (v : RGBAF) : RGBA := ⟨clamp v.r, clamp v.g, clamp v.b, clamp v.a⟩

/-- effects.go blurHorizontal: scan each row to floats, convolve it, and
clamp the four channels of every pixel to 8 bits. -/
noncomputable def blurHorizontal (img : NImage) (kernel : List ℝ) : NImage :=
  ⟨img.w, img.h, fun x y => quantize ((blurHorizontalF (toFImage img) kernel).pix x y)⟩

/-- effects.go blurVertical: scan each column to floats, convolve it, and
clamp the four channels of every pixel to 8 bits. -/
noncomputable def blurVertical (img : NImage) (kernel : List ℝ) : NImage :=
  ⟨img.w, img.h, fun x y => quantize ((blurVerticalF (toFImage img) kernel).pix x y)⟩

/-- effects.go line 8-10: the Gaussian density used for kernel weights. -/
noncomputable def gaussianBlurKernel (x sigma : ℝ) : ℝ :=
  Real.exp (-(x * x) / (2 * sigma * sigma)) / (sigma * Real.sqrt (2 * Real.pi))

/-- effects.go lines 24-29: radius = ceil(sigma*3) and the weight table
kernel[i] = gaussianBlurKernel(i, sigma) for i = 0..radius. -/
noncomputable def blurKernel (sigma : ℝ) : List ℝ :=
  (List.range ((⌈sigma * 3⌉).toNat + 1)).map fun i : ℕ => gaussianBlurKernel (i : ℝ) sigma

/-- Modelled from the spec: Clone returns an unfiltered, pixel-identical
copy of the source image (helper not present under src). -/
def Clone (img : NImage) : NImage := img

/-- effects.go Blur: identity for sigma <= 0, otherwise the horizontal
pass followed by the vertical pass with the Gaussian kernel. -/
noncomputable def Blur (img : NImage) (sigma : ℝ) : NImage :=
  if sigma ≤ 0 then Clone img
  else blurVertical (blurHorizontal img (blurKernel sigma)) (blurKernel sigma)

/-- One output byte of Sharpen (effects.go lines 161-167):
val = orig<<1 - blurred in integer arithmetic, clamped to 0..255. -/
def sharpenVal (orig blurred : ℕ) : ℕ :=
  let val : ℤ := (orig : ℤ) * 2 - (blurred : ℤ)
  if val < 0 then 0 else if val > 255 then 255 else val.toNat

/-- effects.go Sharpen: identity for sigma <= 0, otherwise the unsharp
mask 2*original - blurred per byte, every channel treated alike. -/
noncomputable def Sharpen (img : NImage) (sigma : ℝ) : NImage :=
  if sigma ≤ 0 then Clone img
  else
    ⟨img.w, img.h, fun x y =>
      ⟨sharpenVal (img.pix x y).r ((Blur img sigma).pix x y).r,
       sharpenVal (img.pix x y).g ((Blur img sigma).pix x y).g,
       sharpenVal (img.pix x y).b ((Blur img sigma).pix x y).b,
       sharpenVal (img.pix x y).a ((Blur img sigma).pix x y).a⟩⟩

/-- The retained neighbor window for center p on an axis of length n with
radius R: indices max(0,p-R) .. min(p+R,n-1). -/
def window (n p R : ℕ) : Finset ℕ := Finset.Icc (p - R) (min (p + R) (n - 1))

/-- The per-pixel weight sum: the kernel weights of exactly the retained
neighbors. -/
noncomputable def wSum (kernel : List ℝ) (n p : ℕ) : ℝ :=
  ∑ i in window n p (kernel.length - 1), kweight kernel p i

/-- The per-pixel alpha-weight sum over the retained neighbors. -/
noncomputable def aSum (line : ℕ → RGBAF) (kernel : List ℝ) (n p : ℕ) : ℝ :=
  ∑ i in window n p (kernel.length - 1), (line i).a * kweight kernel p i

/-- The per-pixel accumulated value of one color channel (selected by f)
over the retained neighbors, each weighted by alpha times kernel weight. -/
noncomputable def chSum (f : RGBAF → ℝ) (line : ℕ → RGBAF) (kernel : List ℝ) (n p : ℕ) : ℝ :=
  ∑ i in window n p (kernel.length - 1), f (line i) * ((line i).a * kweight kernel p i)

/-! ### Characterization of the accumulation loop -/

theorem convAccum_r (line : ℕ → RGBAF) (kernel : List ℝ) (p lo : ℕ) (m : ℕ) :
    (convAccum line kernel p lo m).r =
      ∑ j in Finset.range m, (line (lo + j)).r * ((line (lo + j)).a * kweight kernel p (lo + j)) := by
  induction m with
  | zero => simp [convAccum]
  | succ m ih => simp [convAccum, convStep, Finset.sum_range_succ, ih]

theorem convAccum_g (line : ℕ → RGBAF) (kernel : List ℝ) (p lo : ℕ) (m : ℕ) :
    (convAccum line kernel p lo m).g =
      ∑ j in Finset.range m, (line (lo + j)).g * ((line (lo + j)).a * kweight kernel p (lo + j)) := by
  induction m with
  | zero => simp [convAccum]
  | succ m ih => simp [convAccum, convStep, Finset.sum_range_succ, ih]

theorem convAccum_b (line : ℕ → RGBAF) (kernel : List ℝ) (p lo : ℕ) (m : ℕ) :
    (convAccum line kernel p lo m).b =
      ∑ j in Finset.range m, (line (lo + j)).b * ((line (lo + j)).a * kweight kernel p (lo + j)) := by
  induction m with
  | zero => simp [convAccum]
  | succ m ih => simp [convAccum, convStep, Finset.sum_range_succ, ih]

theorem convAccum_a (line : ℕ → RGBAF) (kernel : List ℝ) (p lo : ℕ) (m : ℕ) :
    (convAccum line kernel p lo m).a =
      ∑ j in Finset.range m, (line (lo + j)).a * kweight kernel p (lo + j) := by
  induction m with
  | zero => simp [convAccum]
  | succ m ih => simp [convAccum, convStep, Finset.sum_range_succ, ih]

theorem convAccum_wsum (line : ℕ → RGBAF) (kernel : List ℝ) (p lo : ℕ) (m : ℕ) :
    (convAccum line kernel p lo m).wsum =
      ∑ j in Finset.range m, kweight kernel p (lo + j) := by
  induction m with
  | zero => simp [convAccum]
  | succ m ih => simp [convAccum, convStep, Finset.sum_range_succ, ih]

theorem sum_window_eq_range (n p R : ℕ) (f : ℕ → ℝ) :
    ∑ i in window n p R, f i =
      ∑ j in Finset.range (min (p + R) (n - 1) + 1 - (p - R)), f ((p - R) + j) := by
  rw [window, ← Nat.Ico_succ_right, Finset.sum_Ico_eq_sum_range]

/-! ### Closed form of one convolution pixel -/

theorem convPixelF_eq (line : ℕ → RGBAF) (kernel : List ℝ) (n p : ℕ) :
    convPixelF line kernel n p =
      ⟨if aSum line kernel n p ≠ 0 then
          chSum RGBAF.r line kernel n p / aSum line kernel n p
        else chSum RGBAF.r line kernel n p,
       if aSum line kernel n p ≠ 0 then
          chSum RGBAF.g line kernel n p / aSum line kernel n p
        else chSum RGBAF.g line kernel n p,
       if aSum line kernel n p ≠ 0 then
          chSum RGBAF.b line kernel n p / aSum line kernel n p
        else chSum RGBAF.b line kernel n p,
       aSum line kernel n p / wSum kernel n p⟩ := by
  have hA : (convAccum line kernel p (p - (kernel.length - 1))
      (min (p + (kernel.length - 1)) (n - 1) + 1 - (p - (kernel.length - 1)))).a
      = aSum line kernel n p := by
    rw [convAccum_a]; simp only [aSum]; rw [sum_window_eq_range]
  have hR : (convAccum line kernel p (p - (kernel.length - 1))
      (min (p + (kernel.length - 1)) (n - 1) + 1 - (p - (kernel.length - 1)))).r
      = chSum RGBAF.r line kernel n p := by
    rw [convAccum_r]; simp only [chSum]; rw [sum_window_eq_range]
  have hG : (convAccum line kernel p (p - (kernel.length - 1))
      (min (p + (kernel.length - 1)) (n - 1) + 1 - (p - (kernel.length - 1)))).g
      = chSum RGBAF.g line kernel n p := by
    rw [convAccum_g]; simp only [chSum]; rw [sum_window_eq_range]
  have hB : (convAccum line kernel p (p - (kernel.length - 1))
      (min (p + (kernel.length - 1)) (n - 1) + 1 - (p - (kernel.length - 1)))).b
      = chSum RGBAF.b line kernel n p := by
    rw [convAccum_b]; simp only [chSum]; rw [sum_window_eq_range]
  have hW : (convAccum line kernel p (p - (kernel.length - 1))
      (min (p + (kernel.length - 1)) (n - 1) + 1 - (p - (kernel.length - 1)))).wsum
      = wSum kernel n p := by
    rw [convAccum_wsum]; simp only [wSum]; rw [sum_window_eq_range]
  simp only [convPixelF]
  rw [hA, hR, hG, hB, hW]
  split <;> simp [*]

theorem convPixelF_a (line : ℕ → RGBAF) (kernel : List ℝ) (n p : ℕ) :
    (convPixelF line kernel n p).a = aSum line kernel n p / wSum kernel n p := by
  rw [convPixelF_eq]

/-! ### Sign facts about kernel weights and the window -/

theorem getD_nonneg_of_forall (kernel : List ℝ) (hker : ∀ w ∈ kernel, 0 ≤ w) (j : ℕ) :
    0 ≤ kernel.getD j 0 := by
  rcases lt_or_ge j kernel.length with hj | hj
  · rw [List.getD_eq_getElem?_getD, List.getElem?_eq_getElem hj, Option.getD_some]
    exact hker _ (List.getElem_mem hj)
  · rw [List.getD_eq_getElem?_getD, List.getElem?_eq_none hj, Option.getD_none]

theorem kweight_nonneg (kernel : List ℝ) (hker : ∀ w ∈ kernel, 0 ≤ w) (p i : ℕ) :
    0 ≤ kweight kernel p i :=
  getD_nonneg_of_forall kernel hker _

theorem kweight_pos (kernel : List ℝ) (hne : kernel ≠ []) (hker : ∀ w ∈ kernel, 0 < w)
    (n p i : ℕ) (hi : i ∈ window n p (kernel.length - 1)) : 0 < kweight kernel p i := by
  have hlen : 0 < kernel.length := List.length_pos.mpr hne
  rw [window, Finset.mem_Icc] at hi
  have h1 : p - (kernel.length - 1) ≤ i := hi.1
  have h2 : i ≤ p + (kernel.length - 1) := le_trans hi.2 (min_le_left _ _)
  have hidx : absint ((p : ℤ) - (i : ℤ)) < kernel.length := by
    unfold absint; omega
  unfold kweight
  rw [List.getD_eq_getElem?_getD, List.getElem?_eq_getElem hidx, Option.getD_some]
  exact hker _ (List.getElem_mem hidx)

theorem center_mem_window (n p R : ℕ) (hp : p < n) : p ∈ window n p R := by
  rw [window, Finset.mem_Icc]
  omega

theorem wSum_pos (kernel : List ℝ) (hne : kernel ≠ []) (hker : ∀ w ∈ kernel, 0 < w)
    (n p : ℕ) (hp : p < n) : 0 < wSum kernel n p := by
  unfold wSum
  refine Finset.sum_pos' (fun i hi => (kweight_pos kernel hne hker n p i hi).le)
    ⟨p, center_mem_window n p _ hp, kweight_pos kernel hne hker n p p (center_mem_window n p _ hp)⟩

theorem wSum_nonneg (kernel : List ℝ) (hker : ∀ w ∈ kernel, 0 ≤ w) (n p : ℕ) :
    0 ≤ wSum kernel n p :=
  Finset.sum_nonneg fun i _ => kweight_nonneg kernel hker p i

theorem aSum_nonneg (line : ℕ → RGBAF) (kernel : List ℝ) (n p : ℕ)
    (hker : ∀ w ∈ kernel, 0 ≤ w) (hline : ∀ i, 0 ≤ (line i).a) :
    0 ≤ aSum line kernel n p :=
  Finset.sum_nonneg fun i _ => mul_nonneg (hline i) (kweight_nonneg kernel hker p i)

theorem chSum_eq_zero (f : RGBAF → ℝ) (line : ℕ → RGBAF) (kernel : List ℝ) (n p : ℕ)
    (hker : ∀ w ∈ kernel, 0 ≤ w) (hline : ∀ i, 0 ≤ (line i).a)
    (hA : aSum line kernel n p = 0) : chSum f line kernel n p = 0 := by
  unfold aSum at hA
  unfold chSum
  refine Finset.sum_eq_zero fun i hi => ?_
  have h0 : (line i).a * kweight kernel p i = 0 :=
    (Finset.sum_eq_zero_iff_of_nonneg fun i _ =>
      mul_nonneg (hline i) (kweight_nonneg kernel hker p i)).mp hA i hi
  rw [h0, mul_zero]

theorem guard_premul (A W R : ℝ) (h : A = 0 → R = 0) :
    (if A ≠ 0 then R / A else R) * (A / W) = R / W := by
  by_cases hA : A = 0
  · simp [hA, h hA]
  · rw [if_pos hA, div_mul_div_comm, mul_comm R A, mul_div_mul_left _ _ hA]

theorem quantize_convPixelF (line : ℕ → RGBAF) (kernel : List ℝ) (n p : ℕ)
    (hker : ∀ w ∈ kernel, 0 ≤ w) (hline : ∀ i, 0 ≤ (line i).a) :
    quantize (convPixelF line kernel n p) =
      ⟨clamp (if aSum line kernel n p = 0 then 0
              else chSum RGBAF.r line kernel n p / aSum line kernel n p),
       clamp (if aSum line kernel n p = 0 then 0
              else chSum RGBAF.g line kernel n p / aSum line kernel n p),
       clamp (if aSum line kernel n p = 0 then 0
              else chSum RGBAF.b line kernel n p / aSum line kernel n p),
       clamp (aSum line kernel n p / wSum kernel n p)⟩ := by
  rw [convPixelF_eq]
  by_cases hA : aSum line kernel n p = 0
  · simp [quantize, hA, chSum_eq_zero RGBAF.r line kernel n p hker hline hA,
      chSum_eq_zero RGBAF.g line kernel n p hker hline hA,
      chSum_eq_zero RGBAF.b line kernel n p hker hline hA]
  · simp [quantize, hA]

/-- A concrete 2x2 test image used by the witness theorems. -/
def testImg : NImage := ⟨2, 2, fun _ _ => ⟨10, 20, 30, 255⟩⟩

/-- Claim C1: in each 1-D convolution pass, every in-bounds pixel p is
computed by accumulating r += red[i]*wa, g += green[i]*wa, b += blue[i]*wa
and a_sum += wa over the retained neighbors i, with wa = alpha[i] *
kernel[|p-i|]; then r, g, b are divided by a_sum when a_sum is nonzero and
are 0 when a_sum = 0; finally all four output channels are clamped to
0..255 with rounding before being written. -/
theorem c1_pass_accumulation (img : NImage) (kernel : List ℝ)
    (hker : ∀ w ∈ kernel, 0 ≤ w) (x y : ℕ) (hx : x < img.w) (hy : y < img.h) :
    ((blurHorizontal img kernel).pix x y =
      ⟨clamp (if aSum (fun i => toF (img.pix i y)) kernel img.w x = 0 then 0
              else chSum RGBAF.r (fun i => toF (img.pix i y)) kernel img.w x /
                aSum (fun i => toF (img.pix i y)) kernel img.w x),
       clamp (if aSum (fun i => toF (img.pix i y)) kernel img.w x = 0 then 0
              else chSum RGBAF.g (fun i => toF (img.pix i y)) kernel img.w x /
                aSum (fun i => toF (img.pix i y)) kernel img.w x),
       clamp (if aSum (fun i => toF (img.pix i y)) kernel img.w x = 0 then 0
              else chSum RGBAF.b (fun i => toF (img.pix i y)) kernel img.w x /
                aSum (fun i => toF (img.pix i y)) kernel img.w x),
       clamp (aSum (fun i => toF (img.pix i y)) kernel img.w x / wSum kernel img.w x)⟩) ∧
    ((blurVertical img kernel).pix x y =
      ⟨clamp (if aSum (fun i => toF (img.pix x i)) kernel img.h y = 0 then 0
              else chSum RGBAF.r (fun i => toF (img.pix x i)) kernel img.h y /
                aSum (fun i => toF (img.pix x i)) kernel img.h y),
       clamp (if aSum (fun i => toF (img.pix x i)) kernel img.h y = 0 then 0
              else chSum RGBAF.g (fun i => toF (img.pix x i)) kernel img.h y /
                aSum (fun i => toF (img.pix x i)) kernel img.h y),
       clamp (if aSum (fun i => toF (img.pix x i)) kernel img.h y = 0 then 0
              else chSum RGBAF.b (fun i => toF (img.pix x i)) kernel img.h y /
                aSum (fun i => toF (img.pix x i)) kernel img.h y),
       clamp (aSum (fun i => toF (img.pix x i)) kernel img.h y / wSum kernel img.h y)⟩) := by
  constructor
  · exact quantize_convPixelF (fun i => toF (img.pix i y)) kernel img.w x hker
      (fun i => by simp [toF])
  · exact quantize_convPixelF (fun i => toF (img.pix x i)) kernel img.h y hker
      (fun i => by simp [toF])

/-- Witness for claim C1: the pass formula at a concrete image and kernel. -/
theorem c1_pass_accumulation_witness :
    (∀ w ∈ [(1 : ℝ)], 0 ≤ w) ∧ 0 < testImg.w ∧ 0 < testImg.h ∧
    (((blurHorizontal testImg [(1 : ℝ)]).pix 0 0 =
      ⟨clamp (if aSum (fun i => toF (testImg.pix i 0)) [(1 : ℝ)] testImg.w 0 = 0 then 0
              else chSum RGBAF.r (fun i => toF (testImg.pix i 0)) [(1 : ℝ)] testImg.w 0 /
                aSum (fun i => toF (testImg.pix i 0)) [(1 : ℝ)] testImg.w 0),
       clamp (if aSum (fun i => toF (testImg.pix i 0)) [(1 : ℝ)] testImg.w 0 = 0 then 0
              else chSum RGBAF.g (fun i => toF (testImg.pix i 0)) [(1 : ℝ)] testImg.w 0 /
                aSum (fun i => toF (testImg.pix i 0)) [(1 : ℝ)] testImg.w 0),
       clamp (if aSum (fun i => toF (testImg.pix i 0)) [(1 : ℝ)] testImg.w 0 = 0 then 0
              else chSum RGBAF.b (fun i => toF (testImg.pix i 0)) [(1 : ℝ)] testImg.w 0 /
                aSum (fun i => toF (testImg.pix i 0)) [(1 : ℝ)] testImg.w 0),
       clamp (aSum (fun i => toF (testImg.pix i 0)) [(1 : ℝ)] testImg.w 0 /
         wSum [(1 : ℝ)] testImg.w 0)⟩) ∧
    ((blurVertical testImg [(1 : ℝ)]).pix 0 0 =
      ⟨clamp (if aSum (fun i => toF (testImg.pix 0 i)) [(1 : ℝ)] testImg.h 0 = 0 then 0
              else chSum RGBAF.r (fun i => toF (testImg.pix 0 i)) [(1 : ℝ)] testImg.h 0 /
                aSum (fun i => toF (testImg.pix 0 i)) [(1 : ℝ)] testImg.h 0),
       clamp (if aSum (fun i => toF (testImg.pix 0 i)) [(1 : ℝ)] testImg.h 0 = 0 then 0
              else chSum RGBAF.g (fun i => toF (testImg.pix 0 i)) [(1 : ℝ)] testImg.h 0 /
                aSum (fun i => toF (testImg.pix 0 i)) [(1 : ℝ)] testImg.h 0),
       clamp (if aSum (fun i => toF (testImg.pix 0 i)) [(1 : ℝ)] testImg.h 0 = 0 then 0
              else chSum RGBAF.b (fun i => toF (testImg.pix 0 i)) [(1 : ℝ)] testImg.h 0 /
                aSum (fun i => toF (testImg.pix 0 i)) [(1 : ℝ)] testImg.h 0),
       clamp (aSum (fun i => toF (testImg.pix 0 i)) [(1 : ℝ)] testImg.h 0 /
         wSum [(1 : ℝ)] testImg.h 0)⟩)) :=
  ⟨by norm_num, by norm_num [testImg], by norm_num [testImg],
   c1_pass_accumulation testImg [(1 : ℝ)] (by norm_num) 0 0
     (by norm_num [testImg]) (by norm_num [testImg])⟩

/-- Claim C2: in each 1-D convolution pass, the contributing neighbor
range for pixel p on an axis of length N with radius R is exactly
[max(0,p-R), min(N-1,p+R)] (out-of-image neighbors are omitted: every
retained index is in bounds), the weight sum is the sum of kernel[|p-i|]
over only the retained neighbors, and the output alpha channel equals
a_sum / wsum, clamped to 8 bits. -/
theorem c2_window_and_alpha (img : NImage) (kernel : List ℝ) (hne : kernel ≠ [])
    (x y : ℕ) (hx : x < img.w) (hy : y < img.h) :
    (((x - (kernel.length - 1) : ℕ) : ℤ) = max 0 ((x : ℤ) - (kernel.length - 1)) ∧
     ((min (x + (kernel.length - 1)) (img.w - 1) : ℕ) : ℤ)
        = min ((img.w : ℤ) - 1) ((x : ℤ) + (kernel.length - 1)) ∧
     (∀ i ∈ window img.w x (kernel.length - 1), i < img.w) ∧
     ((blurHorizontal img kernel).pix x y).a =
        clamp (aSum (fun i => toF (img.pix i y)) kernel img.w x / wSum kernel img.w x)) ∧
    (((y - (kernel.length - 1) : ℕ) : ℤ) = max 0 ((y : ℤ) - (kernel.length - 1)) ∧
     ((min (y + (kernel.length - 1)) (img.h - 1) : ℕ) : ℤ)
        = min ((img.h : ℤ) - 1) ((y : ℤ) + (kernel.length - 1)) ∧
     (∀ i ∈ window img.h y (kernel.length - 1), i < img.h) ∧
     ((blurVertical img kernel).pix x y).a =
        clamp (aSum (fun i => toF (img.pix x i)) kernel img.h y / wSum kernel img.h y)) := by
  have hlen : 0 < kernel.length := List.length_pos.mpr hne
  refine ⟨⟨by omega, by omega, fun i hi => ?_, ?_⟩,
          ⟨by omega, by omega, fun i hi => ?_, ?_⟩⟩
  · rw [window, Finset.mem_Icc] at hi
    omega
  · have h : ((blurHorizontal img kernel).pix x y).a =
        clamp ((convPixelF (fun i => toF (img.pix i y)) kernel img.w x).a) := rfl
    rw [h, convPixelF_a]
  · rw [window, Finset.mem_Icc] at hi
    omega
  · have h : ((blurVertical img kernel).pix x y).a =
        clamp ((convPixelF (fun i => toF (img.pix x i)) kernel img.h y).a) := rfl
    rw [h, convPixelF_a]

/-- Witness for claim C2 at a concrete image and kernel. -/
theorem c2_window_and_alpha_witness :
    [(1 : ℝ)] ≠ [] ∧ 0 < testImg.w ∧ 0 < testImg.h ∧
    ((((0 : ℕ) - ([(1 : ℝ)].length - 1) : ℕ) : ℤ)
        = max 0 (((0 : ℕ) : ℤ) - ([(1 : ℝ)].length - 1)) ∧
     ((min (0 + ([(1 : ℝ)].length - 1)) (testImg.w - 1) : ℕ) : ℤ)
        = min ((testImg.w : ℤ) - 1) (((0 : ℕ) : ℤ) + ([(1 : ℝ)].length - 1)) ∧
     (∀ i ∈ window testImg.w 0 ([(1 : ℝ)].length - 1), i < testImg.w) ∧
     ((blurHorizontal testImg [(1 : ℝ)]).pix 0 0).a =
        clamp (aSum (fun i => toF (testImg.pix i 0)) [(1 : ℝ)] testImg.w 0 /
          wSum [(1 : ℝ)] testImg.w 0)) ∧
    ((((0 : ℕ) - ([(1 : ℝ)].length - 1) : ℕ) : ℤ)
        = max 0 (((0 : ℕ) : ℤ) - ([(1 : ℝ)].length - 1)) ∧
     ((min (0 + ([(1 : ℝ)].length - 1)) (testImg.h - 1) : ℕ) : ℤ)
        = min ((testImg.h : ℤ) - 1) (((0 : ℕ) : ℤ) + ([(1 : ℝ)].length - 1)) ∧
     (∀ i ∈ window testImg.h 0 ([(1 : ℝ)].length - 1), i < testImg.h) ∧
     ((blurVertical testImg [(1 : ℝ)]).pix 0 0).a =
        clamp (aSum (fun i => toF (testImg.pix 0 i)) [(1 : ℝ)] testImg.h 0 /
          wSum [(1 : ℝ)] testImg.h 0)) :=
  ⟨by simp, by norm_num [testImg], by norm_num [testImg],
   c2_window_and_alpha testImg [(1 : ℝ)] (by simp) 0 0
     (by norm_num [testImg]) (by norm_num [testImg])⟩

/-! ### The Gaussian kernel builder -/

theorem blurKernel_length (sigma : ℝ) :
    (blurKernel sigma).length = (⌈sigma * 3⌉).toNat + 1 := by
  rw [blurKernel, List.length_map, List.length_range]

theorem blurKernel_getD (sigma : ℝ) (i : ℕ) (hi : i ≤ (⌈sigma * 3⌉).toNat) :
    (blurKernel sigma).getD i 0 = gaussianBlurKernel (i : ℝ) sigma := by
  have hlt : i < ((List.range ((⌈sigma * 3⌉).toNat + 1)).map
      fun j : ℕ => gaussianBlurKernel (j : ℝ) sigma).length := by
    rw [List.length_map, List.length_range]
    omega
  rw [blurKernel, List.getD_eq_getElem?_getD, List.getElem?_eq_getElem hlt, Option.getD_some]
  simp only [List.getElem_map, List.getElem_range]

theorem gaussianBlurKernel_pos (x sigma : ℝ) (hσ : 0 < sigma) :
    0 < gaussianBlurKernel x sigma := by
  unfold gaussianBlurKernel
  exact div_pos (Real.exp_pos _) (mul_pos hσ (Real.sqrt_pos.mpr (by positivity)))

theorem gaussianBlurKernel_anti (sigma : ℝ) (hσ : 0 < sigma) (x y : ℝ)
    (hx : 0 ≤ x) (hxy : x ≤ y) :
    gaussianBlurKernel y sigma ≤ gaussianBlurKernel x sigma := by
  unfold gaussianBlurKernel
  have hd : 0 < sigma * Real.sqrt (2 * Real.pi) :=
    mul_pos hσ (Real.sqrt_pos.mpr (by positivity))
  refine (div_le_div_right hd).mpr (Real.exp_le_exp.mpr ?_)
  have h2 : 0 < 2 * sigma * sigma := by positivity
  refine (div_le_div_right h2).mpr ?_
  have hs : x * x ≤ y * y := mul_self_le_mul_self hx hxy
  linarith

theorem blurKernel_mem_pos (sigma : ℝ) (hσ : 0 < sigma) :
    ∀ w ∈ blurKernel sigma, 0 < w := by
  intro w hw
  rw [blurKernel, List.mem_map] at hw
  obtain ⟨i, _, rfl⟩ := hw
  exact gaussianBlurKernel_pos _ _ hσ

theorem blurKernel_ne_nil (sigma : ℝ) : blurKernel sigma ≠ [] := by
  have : (blurKernel sigma).length = (⌈sigma * 3⌉).toNat + 1 := blurKernel_length sigma
  intro h
  rw [h] at this
  simp at this

/-- Claim C3: for sigma > 0, the kernel builder computes
radius = ceil(3*sigma) and produces exactly radius+1 weights, the weight
at distance x being the Gaussian density exp(-x^2/(2 sigma^2)) /
(sigma sqrt(2 pi)); no normalization is applied at build time (the
weights are the raw density values). -/
theorem c3_kernel_builder (sigma : ℝ) (hσ : 0 < sigma) :
    (blurKernel sigma).length = (⌈(3 : ℝ) * sigma⌉).toNat + 1 ∧
    ∀ x : ℕ, x ≤ (⌈(3 : ℝ) * sigma⌉).toNat →
      (blurKernel sigma).getD x 0 =
        Real.exp (-(x : ℝ) ^ 2 / (2 * sigma ^ 2)) / (sigma * Real.sqrt (2 * Real.pi)) := by
  have h3 : ⌈(3 : ℝ) * sigma⌉ = ⌈sigma * 3⌉ := by rw [mul_comm]
  constructor
  · rw [blurKernel_length, h3]
  · intro x hx
    rw [h3] at hx
    rw [blurKernel_getD sigma x hx]
    unfold gaussianBlurKernel
    ring_nf

/-- Witness for claim C3 at sigma = 1. -/
theorem c3_kernel_builder_witness :
    (0 : ℝ) < 1 ∧
    ((blurKernel 1).length = (⌈(3 : ℝ) * 1⌉).toNat + 1 ∧
     ∀ x : ℕ, x ≤ (⌈(3 : ℝ) * 1⌉).toNat →
      (blurKernel 1).getD x 0 =
        Real.exp (-(x : ℝ) ^ 2 / (2 * 1 ^ 2)) / (1 * Real.sqrt (2 * Real.pi))) :=
  ⟨by norm_num, c3_kernel_builder 1 (by norm_num)⟩

/-- Claim C9: for sigma > 0, every kernel weight is non-negative and the
weights are monotonically non-increasing in the distance index. -/
theorem c9_kernel_shape (sigma : ℝ) (hσ : 0 < sigma) :
    (∀ i : ℕ, 0 ≤ (blurKernel sigma).getD i 0) ∧
    ∀ i : ℕ, i < (blurKernel sigma).length - 1 →
      (blurKernel sigma).getD (i + 1) 0 ≤ (blurKernel sigma).getD i 0 := by
  constructor
  · intro i
    exact getD_nonneg_of_forall _ (fun w hw => (blurKernel_mem_pos sigma hσ w hw).le) i
  · intro i hi
    rw [blurKernel_length] at hi
    have hi1 : i + 1 ≤ (⌈sigma * 3⌉).toNat := by omega
    rw [blurKernel_getD sigma i (by omega), blurKernel_getD sigma (i + 1) hi1]
    refine gaussianBlurKernel_anti sigma hσ (i : ℝ) ((i + 1 : ℕ) : ℝ)
      (Nat.cast_nonneg i) ?_
    push_cast
    linarith

/-- Witness for claim C9 at sigma = 1. -/
theorem c9_kernel_shape_witness :
    (0 : ℝ) < 1 ∧
    ((∀ i : ℕ, 0 ≤ (blurKernel 1).getD i 0) ∧
     ∀ i : ℕ, i < (blurKernel 1).length - 1 →
      (blurKernel 1).getD (i + 1) 0 ≤ (blurKernel 1).getD i 0) :=
  ⟨by norm_num, c9_kernel_shape 1 (by norm_num)⟩

/-- Claim C10: for sigma > 0 and any axis of length n >= 1, every kernel
weight is strictly positive, the clamped window always contains the
center pixel, and the per-pixel weight sum is strictly positive, so the
a/wsum division never divides by zero (the color divisions being guarded
by the a != 0 test in the pass itself). -/
theorem c10_wsum_pos (sigma : ℝ) (hσ : 0 < sigma) (n p : ℕ) (hp : p < n) :
    (blurKernel sigma ≠ [] ∧ ∀ w ∈ blurKernel sigma, 0 < w) ∧
    p ∈ window n p ((blurKernel sigma).length - 1) ∧
    0 < wSum (blurKernel sigma) n p :=
  ⟨⟨blurKernel_ne_nil sigma, blurKernel_mem_pos sigma hσ⟩,
   center_mem_window n p _ hp,
   wSum_pos _ (blurKernel_ne_nil sigma) (blurKernel_mem_pos sigma hσ) n p hp⟩

/-- Witness for claim C10 at sigma = 1 on an axis of length 2. -/
theorem c10_wsum_pos_witness :
    (0 : ℝ) < 1 ∧ (0 : ℕ) < 2 ∧
    ((blurKernel 1 ≠ [] ∧ ∀ w ∈ blurKernel 1, 0 < w) ∧
     (0 : ℕ) ∈ window 2 0 ((blurKernel 1).length - 1) ∧
     0 < wSum (blurKernel 1) 2 0) :=
  ⟨by norm_num, by norm_num, c10_wsum_pos 1 (by norm_num) 2 0 (by norm_num)⟩

/-! ### Degenerate sigma, dimensions, and the sharpen formula -/

/-- Claim C5: for sigma <= 0 both Blur and Sharpen return an image
pixel-identical to the source (identity law, no filtering performed). -/
theorem c5_identity (img : NImage) (sigma : ℝ) (h : sigma ≤ 0) :
    Blur img sigma = img ∧ Sharpen img sigma = img := by
  constructor
  · unfold Blur
    rw [if_pos h]
    rfl
  · unfold Sharpen
    rw [if_pos h]
    rfl

/-- Witness for claim C5 at sigma = -1. -/
theorem c5_identity_witness :
    (-1 : ℝ) ≤ 0 ∧ (Blur testImg (-1) = testImg ∧ Sharpen testImg (-1) = testImg) :=
  ⟨by norm_num, c5_identity testImg (-1) (by norm_num)⟩

/-- Claim C6: for every image and every sigma (positive, zero or
negative), the output of Blur and of Sharpen has the width and height of
the source image. -/
theorem c6_dimensions (img : NImage) (sigma : ℝ) :
    (Blur img sigma).w = img.w ∧ (Blur img sigma).h = img.h ∧
    (Sharpen img sigma).w = img.w ∧ (Sharpen img sigma).h = img.h := by
  unfold Blur Sharpen
  by_cases h : sigma ≤ 0 <;>
    simp [h, Clone, blurVertical, blurHorizontal]

theorem sharpenVal_eq (o b : ℕ) :
    sharpenVal o b = (min 255 (max 0 (2 * (o : ℤ) - (b : ℤ)))).toNat := by
  simp only [sharpenVal]
  split
  · omega
  · split <;> omega

/-- Claim C4: for sigma > 0, Sharpen first computes
blurred = Blur(image, sigma), then sets every one of the four channels
(red, green, blue and alpha, treated identically and independently) of
every sample to clamp(2*original - blurred, 0, 255). -/
theorem c4_sharpen_formula (img : NImage) (sigma : ℝ) (hσ : 0 < sigma)
    (x y : ℕ) (hx : x < img.w) (hy : y < img.h) :
    (Sharpen img sigma).pix x y =
      ⟨(min 255 (max 0 (2 * ((img.pix x y).r : ℤ) - (((Blur img sigma).pix x y).r : ℤ)))).toNat,
       (min 255 (max 0 (2 * ((img.pix x y).g : ℤ) - (((Blur img sigma).pix x y).g : ℤ)))).toNat,
       (min 255 (max 0 (2 * ((img.pix x y).b : ℤ) - (((Blur img sigma).pix x y).b : ℤ)))).toNat,
       (min 255 (max 0 (2 * ((img.pix x y).a : ℤ) - (((Blur img sigma).pix x y).a : ℤ)))).toNat⟩ := by
  have hns : ¬ sigma ≤ 0 := not_le.mpr hσ
  unfold Sharpen
  rw [if_neg hns]
  simp [sharpenVal_eq, mul_comm]

/-- Witness for claim C4 at a concrete image and sigma = 1. -/
theorem c4_sharpen_formula_witness :
    (0 : ℝ) < 1 ∧ 0 < testImg.w ∧ 0 < testImg.h ∧
    (Sharpen testImg 1).pix 0 0 =
      ⟨(min 255 (max 0 (2 * ((testImg.pix 0 0).r : ℤ) - (((Blur testImg 1).pix 0 0).r : ℤ)))).toNat,
       (min 255 (max 0 (2 * ((testImg.pix 0 0).g : ℤ) - (((Blur testImg 1).pix 0 0).g : ℤ)))).toNat,
       (min 255 (max 0 (2 * ((testImg.pix 0 0).b : ℤ) - (((Blur testImg 1).pix 0 0).b : ℤ)))).toNat,
       (min 255 (max 0 (2 * ((testImg.pix 0 0).a : ℤ) - (((Blur testImg 1).pix 0 0).a : ℤ)))).toNat⟩ :=
  ⟨by norm_num, by norm_num [testImg], by norm_num [testImg],
   c4_sharpen_formula testImg 1 (by norm_num) 0 0
     (by norm_num [testImg]) (by norm_num [testImg])⟩

/-! ### Flat opaque images are fixed points -/

theorem clamp_natCast (c : ℕ) (hc : c ≤ 255) : clamp (c : ℝ) = c := by
  unfold clamp
  have hfloor : ⌊(c : ℝ) + 1 / 2⌋ = (c : ℤ) := by
    rw [Int.floor_eq_iff]
    constructor
    · push_cast
      linarith
    · push_cast
      linarith
  rw [hfloor, Int.toNat_natCast]
  exact min_eq_right hc

theorem clamp_255 : clamp (255 : ℝ) = 255 := by
  have h := clamp_natCast 255 le_rfl
  norm_num at h
  exact h

theorem sum_const_mul_kweight (kernel : List ℝ) (n p : ℕ) (c : ℝ) :
    ∑ i in window n p (kernel.length - 1), c * kweight kernel p i = c * wSum kernel n p := by
  unfold wSum
  rw [Finset.mul_sum]

theorem convPixelF_flat (line : ℕ → RGBAF) (kernel : List ℝ) (n p : ℕ)
    (hne : kernel ≠ []) (hker : ∀ w ∈ kernel, 0 < w) (hp : p < n) (cr cg cb : ℕ)
    (hline : ∀ i ∈ window n p (kernel.length - 1),
      line i = ⟨(cr : ℝ), (cg : ℝ), (cb : ℝ), (255 : ℝ)⟩) :
    convPixelF line kernel n p = ⟨(cr : ℝ), (cg : ℝ), (cb : ℝ), (255 : ℝ)⟩ := by
  have hW : 0 < wSum kernel n p := wSum_pos kernel hne hker n p hp
  have hA : aSum line kernel n p = 255 * wSum kernel n p := by
    unfold aSum
    rw [← sum_const_mul_kweight kernel n p 255]
    refine Finset.sum_congr rfl fun i hi => ?_
    rw [hline i hi]
  have hR : chSum RGBAF.r line kernel n p = (cr : ℝ) * 255 * wSum kernel n p := by
    unfold chSum
    rw [← sum_const_mul_kweight kernel n p ((cr : ℝ) * 255)]
    refine Finset.sum_congr rfl fun i hi => ?_
    rw [hline i hi]
    show (cr : ℝ) * ((255 : ℝ) * kweight kernel p i) = (cr : ℝ) * 255 * kweight kernel p i
    ring
  have hG : chSum RGBAF.g line kernel n p = (cg : ℝ) * 255 * wSum kernel n p := by
    unfold chSum
    rw [← sum_const_mul_kweight kernel n p ((cg : ℝ) * 255)]
    refine Finset.sum_congr rfl fun i hi => ?_
    rw [hline i hi]
    show (cg : ℝ) * ((255 : ℝ) * kweight kernel p i) = (cg : ℝ) * 255 * kweight kernel p i
    ring
  have hB : chSum RGBAF.b line kernel n p = (cb : ℝ) * 255 * wSum kernel n p := by
    unfold chSum
    rw [← sum_const_mul_kweight kernel n p ((cb : ℝ) * 255)]
    refine Finset.sum_congr rfl fun i hi => ?_
    rw [hline i hi]
    show (cb : ℝ) * ((255 : ℝ) * kweight kernel p i) = (cb : ℝ) * 255 * kweight kernel p i
    ring
  have hX : (255 : ℝ) * wSum kernel n p ≠ 0 :=
    (mul_pos (by norm_num : (0 : ℝ) < 255) hW).ne'
  rw [convPixelF_eq, hA, hR, hG, hB]
  rw [if_pos hX, if_pos hX, if_pos hX]
  have h1 : (cr : ℝ) * 255 * wSum kernel n p / (255 * wSum kernel n p) = cr := by
    rw [mul_assoc, mul_div_cancel_right₀ _ hX]
  have h2 : (cg : ℝ) * 255 * wSum kernel n p / (255 * wSum kernel n p) = cg := by
    rw [mul_assoc, mul_div_cancel_right₀ _ hX]
  have h3 : (cb : ℝ) * 255 * wSum kernel n p / (255 * wSum kernel n p) = cb := by
    rw [mul_assoc, mul_div_cancel_right₀ _ hX]
  have h4 : (255 : ℝ) * wSum kernel n p / wSum kernel n p = 255 :=
    mul_div_cancel_right₀ 255 hW.ne'
  rw [h1, h2, h3, h4]

/-- All in-bounds pixels of the image equal the given fully-opaque color. -/
def FlatOn (img : NImage) (cr cg cb : ℕ) : Prop :=
  ∀ x y, x < img.w → y < img.h → img.pix x y = ⟨cr, cg, cb, 255⟩

theorem Blur_w (img : NImage) (sigma : ℝ) : (Blur img sigma).w = img.w := by
  unfold Blur
  split <;> rfl

theorem Blur_h (img : NImage) (sigma : ℝ) : (Blur img sigma).h = img.h := by
  unfold Blur
  split <;> rfl

theorem Sharpen_w (img : NImage) (sigma : ℝ) : (Sharpen img sigma).w = img.w := by
  unfold Sharpen
  split <;> rfl

theorem Sharpen_h (img : NImage) (sigma : ℝ) : (Sharpen img sigma).h = img.h := by
  unfold Sharpen
  split <;> rfl

theorem sharpenVal_self (c : ℕ) (hc : c ≤ 255) : sharpenVal c c = c := by
  rw [sharpenVal_eq]
  omega

theorem flatOn_quantized_pass (img : NImage) (kernel : List ℝ)
    (hne : kernel ≠ []) (hker : ∀ w ∈ kernel, 0 < w)
    (cr cg cb : ℕ) (hr : cr ≤ 255) (hg : cg ≤ 255) (hb : cb ≤ 255)
    (hflat : FlatOn img cr cg cb) :
    FlatOn (blurHorizontal img kernel) cr cg cb ∧
    FlatOn (blurVertical img kernel) cr cg cb := by
  have hq : quantize ⟨(cr : ℝ), (cg : ℝ), (cb : ℝ), (255 : ℝ)⟩ = ⟨cr, cg, cb, 255⟩ := by
    unfold quantize
    rw [clamp_natCast cr hr, clamp_natCast cg hg, clamp_natCast cb hb, clamp_255]
  constructor
  · intro x y hx hy
    have hx' : x < img.w := hx
    have hy' : y < img.h := hy
    show quantize (convPixelF (fun i => toF (img.pix i y)) kernel img.w x) = _
    rw [convPixelF_flat (fun i => toF (img.pix i y)) kernel img.w x hne hker hx' cr cg cb
      (fun i hi => ?_), hq]
    have hiw : i < img.w := by
      rw [window, Finset.mem_Icc] at hi
      omega
    show toF (img.pix i y) = _
    rw [hflat i y hiw hy']
    simp [toF]
  · intro x y hx hy
    have hx' : x < img.w := hx
    have hy' : y < img.h := hy
    show quantize (convPixelF (fun i => toF (img.pix x i)) kernel img.h y) = _
    rw [convPixelF_flat (fun i => toF (img.pix x i)) kernel img.h y hne hker hy' cr cg cb
      (fun i hi => ?_), hq]
    have hih : i < img.h := by
      rw [window, Finset.mem_Icc] at hi
      omega
    show toF (img.pix x i) = _
    rw [hflat x i hx' hih]
    simp [toF]

theorem flatOn_Blur (img : NImage) (sigma : ℝ) (hσ : 0 < sigma)
    (cr cg cb : ℕ) (hr : cr ≤ 255) (hg : cg ≤ 255) (hb : cb ≤ 255)
    (hflat : FlatOn img cr cg cb) : FlatOn (Blur img sigma) cr cg cb := by
  have hns : ¬ sigma ≤ 0 := not_le.mpr hσ
  have hne := blurKernel_ne_nil sigma
  have hker := blurKernel_mem_pos sigma hσ
  unfold Blur
  rw [if_neg hns]
  exact (flatOn_quantized_pass _ _ hne hker cr cg cb hr hg hb
    (flatOn_quantized_pass img _ hne hker cr cg cb hr hg hb hflat).1).2

theorem flatOn_Sharpen (img : NImage) (sigma : ℝ) (hσ : 0 < sigma)
    (cr cg cb : ℕ) (hr : cr ≤ 255) (hg : cg ≤ 255) (hb : cb ≤ 255)
    (hflat : FlatOn img cr cg cb) : FlatOn (Sharpen img sigma) cr cg cb := by
  have hns : ¬ sigma ≤ 0 := not_le.mpr hσ
  intro x y hx hy
  rw [Sharpen_w img sigma] at hx
  rw [Sharpen_h img sigma] at hy
  have hB : (Blur img sigma).pix x y = ⟨cr, cg, cb, 255⟩ :=
    flatOn_Blur img sigma hσ cr cg cb hr hg hb hflat x y
      (by rw [Blur_w]; exact hx) (by rw [Blur_h]; exact hy)
  have hpix : (Sharpen img sigma).pix x y =
      ⟨sharpenVal (img.pix x y).r ((Blur img sigma).pix x y).r,
       sharpenVal (img.pix x y).g ((Blur img sigma).pix x y).g,
       sharpenVal (img.pix x y).b ((Blur img sigma).pix x y).b,
       sharpenVal (img.pix x y).a ((Blur img sigma).pix x y).a⟩ := by
    unfold Sharpen
    rw [if_neg hns]
  rw [hpix, hflat x y hx hy, hB]
  show (⟨sharpenVal cr cr, sharpenVal cg cg, sharpenVal cb cb, sharpenVal 255 255⟩ : RGBA) = _
  rw [sharpenVal_self cr hr, sharpenVal_self cg hg, sharpenVal_self cb hb,
    sharpenVal_self 255 le_rfl]

/-- A uniformly-colored, fully-opaque image. -/
def flatImage (w h cr cg cb : ℕ) : NImage := ⟨w, h, fun _ _ => ⟨cr, cg, cb, 255⟩⟩

/-- Claim C7: for every uniformly-opaque single-color image of any size
and every sigma > 0, Blur returns the same color unchanged at every
in-bounds pixel, Sharpen also returns the same color unchanged, and
applying Sharpen twice still returns the same flat color (idempotence of
Sharpen on flat-color images). -/
theorem c7_flat_fixed_point (w h cr cg cb : ℕ)
    (hr : cr ≤ 255) (hg : cg ≤ 255) (hb : cb ≤ 255)
    (sigma : ℝ) (hσ : 0 < sigma) (x y : ℕ) (hx : x < w) (hy : y < h) :
    (Blur (flatImage w h cr cg cb) sigma).pix x y = ⟨cr, cg, cb, 255⟩ ∧
    (Sharpen (flatImage w h cr cg cb) sigma).pix x y = ⟨cr, cg, cb, 255⟩ ∧
    (Sharpen (Sharpen (flatImage w h cr cg cb) sigma) sigma).pix x y = ⟨cr, cg, cb, 255⟩ := by
  have hflat : FlatOn (flatImage w h cr cg cb) cr cg cb := fun _ _ _ _ => rfl
  have h1 := flatOn_Blur (flatImage w h cr cg cb) sigma hσ cr cg cb hr hg hb hflat
  have h2 := flatOn_Sharpen (flatImage w h cr cg cb) sigma hσ cr cg cb hr hg hb hflat
  have h3 := flatOn_Sharpen (Sharpen (flatImage w h cr cg cb) sigma) sigma hσ cr cg cb
    hr hg hb h2
  refine ⟨h1 x y ?_ ?_, h2 x y ?_ ?_, h3 x y ?_ ?_⟩
  · rw [Blur_w]
    exact hx
  · rw [Blur_h]
    exact hy
  · rw [Sharpen_w]
    exact hx
  · rw [Sharpen_h]
    exact hy
  · rw [Sharpen_w, Sharpen_w]
    exact hx
  · rw [Sharpen_h, Sharpen_h]
    exact hy

/-- Witness for claim C7 on a 2x2 flat image with color (10,20,30,255)
and sigma = 1. -/
theorem c7_flat_fixed_point_witness :
    (10 : ℕ) ≤ 255 ∧ (20 : ℕ) ≤ 255 ∧ (30 : ℕ) ≤ 255 ∧ (0 : ℝ) < 1 ∧
    (0 : ℕ) < 2 ∧ (0 : ℕ) < 2 ∧
    ((Blur (flatImage 2 2 10 20 30) 1).pix 0 0 = ⟨10, 20, 30, 255⟩ ∧
     (Sharpen (flatImage 2 2 10 20 30) 1).pix 0 0 = ⟨10, 20, 30, 255⟩ ∧
     (Sharpen (Sharpen (flatImage 2 2 10 20 30) 1) 1).pix 0 0 = ⟨10, 20, 30, 255⟩) :=
  ⟨by norm_num, by norm_num, by norm_num, by norm_num, by norm_num, by norm_num,
   c7_flat_fixed_point 2 2 10 20 30 (by norm_num) (by norm_num) (by norm_num) 1
     (by norm_num) 0 0 (by norm_num) (by norm_num)⟩

/-! ### Commutation of the two passes in exact real arithmetic -/

theorem aSum_def (line : ℕ → RGBAF) (kernel : List ℝ) (n p : ℕ) :
    aSum line kernel n p =
      ∑ i in window n p (kernel.length - 1), (line i).a * kweight kernel p i := rfl

theorem chSum_def (f : RGBAF → ℝ) (line : ℕ → RGBAF) (kernel : List ℝ) (n p : ℕ) :
    chSum f line kernel n p =
      ∑ i in window n p (kernel.length - 1), f (line i) * ((line i).a * kweight kernel p i) := rfl

/-- Selector for the three color channels. -/
def sel : Fin 3 → RGBAF → ℝ
  | 0, v => v.r
  | 1, v => v.g
  | 2, v => v.b

theorem sel_convPixelF (c : Fin 3) (line : ℕ → RGBAF) (kernel : List ℝ) (n p : ℕ) :
    sel c (convPixelF line kernel n p) =
      if aSum line kernel n p ≠ 0 then
        chSum (sel c) line kernel n p / aSum line kernel n p
      else chSum (sel c) line kernel n p := by
  fin_cases c <;> rw [convPixelF_eq] <;> rfl

theorem convPixelF_a_nonneg (line : ℕ → RGBAF) (kernel : List ℝ) (n p : ℕ)
    (hker : ∀ w ∈ kernel, 0 ≤ w) (hline : ∀ i, 0 ≤ (line i).a) :
    0 ≤ (convPixelF line kernel n p).a := by
  rw [convPixelF_a]
  exact div_nonneg (aSum_nonneg line kernel n p hker hline) (wSum_nonneg kernel hker n p)

theorem sel_premul (c : Fin 3) (line : ℕ → RGBAF) (kernel : List ℝ) (n p : ℕ)
    (hker : ∀ w ∈ kernel, 0 ≤ w) (hline : ∀ i, 0 ≤ (line i).a) :
    sel c (convPixelF line kernel n p) * (convPixelF line kernel n p).a =
      chSum (sel c) line kernel n p / wSum kernel n p := by
  rw [sel_convPixelF, convPixelF_a]
  exact guard_premul _ _ _ (fun hA => chSum_eq_zero (sel c) line kernel n p hker hline hA)

theorem div_div_div_same (a b c : ℝ) (hc : c ≠ 0) : a / c / (b / c) = a / b := by
  rw [div_div_eq_mul_div, div_mul_cancel₀ _ hc]

theorem sel_zero : sel 0 = RGBAF.r := rfl

theorem sel_one : sel 1 = RGBAF.g := rfl

theorem sel_two : sel 2 = RGBAF.b := rfl

theorem convPixelF_comm (F : ℕ → ℕ → RGBAF) (kernel : List ℝ)
    (hne : kernel ≠ []) (hker : ∀ t ∈ kernel, 0 < t)
    (w h x y : ℕ) (hx : x < w) (hy : y < h)
    (ha : ∀ i j, 0 ≤ (F i j).a) :
    convPixelF (fun j => convPixelF (fun i => F i j) kernel w x) kernel h y =
      convPixelF (fun i => convPixelF (fun j => F i j) kernel h y) kernel w x := by
  have hker0 : ∀ t ∈ kernel, 0 ≤ t := fun t ht => (hker t ht).le
  have hsx : 0 < wSum kernel w x := wSum_pos kernel hne hker w x hx
  have hsy : 0 < wSum kernel h y := wSum_pos kernel hne hker h y hy
  have hgeRow : ∀ j, 0 ≤ ((fun j => convPixelF (fun i => F i j) kernel w x) j).a :=
    fun j => convPixelF_a_nonneg _ kernel w x hker0 (fun i => ha i j)
  have hgeCol : ∀ i, 0 ≤ ((fun i => convPixelF (fun j => F i j) kernel h y) i).a :=
    fun i => convPixelF_a_nonneg _ kernel h y hker0 (fun j => ha i j)
  have hA1 : aSum (fun j => convPixelF (fun i => F i j) kernel w x) kernel h y =
      (∑ j in window h y (kernel.length - 1),
        aSum (fun i => F i j) kernel w x * kweight kernel y j) / wSum kernel w x := by
    rw [aSum_def, Finset.sum_div]
    refine Finset.sum_congr rfl fun j hj => ?_
    show (convPixelF (fun i => F i j) kernel w x).a * kweight kernel y j = _
    rw [convPixelF_a, div_mul_eq_mul_div]
  have hA2 : aSum (fun i => convPixelF (fun j => F i j) kernel h y) kernel w x =
      (∑ i in window w x (kernel.length - 1),
        aSum (fun j => F i j) kernel h y * kweight kernel x i) / wSum kernel h y := by
    rw [aSum_def, Finset.sum_div]
    refine Finset.sum_congr rfl fun i hi => ?_
    show (convPixelF (fun j => F i j) kernel h y).a * kweight kernel x i = _
    rw [convPixelF_a, div_mul_eq_mul_div]
  have hDa : (∑ j in window h y (kernel.length - 1),
        aSum (fun i => F i j) kernel w x * kweight kernel y j) =
      ∑ i in window w x (kernel.length - 1),
        aSum (fun j => F i j) kernel h y * kweight kernel x i := by
    simp only [aSum_def, Finset.sum_mul]
    rw [Finset.sum_comm]
    refine Finset.sum_congr rfl fun i hi => Finset.sum_congr rfl fun j hj => ?_
    ring
  have hC1 : ∀ c : Fin 3,
      chSum (sel c) (fun j => convPixelF (fun i => F i j) kernel w x) kernel h y =
      (∑ j in window h y (kernel.length - 1),
        chSum (sel c) (fun i => F i j) kernel w x * kweight kernel y j) / wSum kernel w x := by
    intro c
    rw [chSum_def, Finset.sum_div]
    refine Finset.sum_congr rfl fun j hj => ?_
    show sel c (convPixelF (fun i => F i j) kernel w x) *
      ((convPixelF (fun i => F i j) kernel w x).a * kweight kernel y j) = _
    rw [← mul_assoc, sel_premul c (fun i => F i j) kernel w x hker0 (fun i => ha i j),
      div_mul_eq_mul_div]
  have hC2 : ∀ c : Fin 3,
      chSum (sel c) (fun i => convPixelF (fun j => F i j) kernel h y) kernel w x =
      (∑ i in window w x (kernel.length - 1),
        chSum (sel c) (fun j => F i j) kernel h y * kweight kernel x i) / wSum kernel h y := by
    intro c
    rw [chSum_def, Finset.sum_div]
    refine Finset.sum_congr rfl fun i hi => ?_
    show sel c (convPixelF (fun j => F i j) kernel h y) *
      ((convPixelF (fun j => F i j) kernel h y).a * kweight kernel x i) = _
    rw [← mul_assoc, sel_premul c (fun j => F i j) kernel h y hker0 (fun j => ha i j),
      div_mul_eq_mul_div]
  have hDc : ∀ c : Fin 3,
      (∑ j in window h y (kernel.length - 1),
        chSum (sel c) (fun i => F i j) kernel w x * kweight kernel y j) =
      ∑ i in window w x (kernel.length - 1),
        chSum (sel c) (fun j => F i j) kernel h y * kweight kernel x i := by
    intro c
    simp only [chSum_def, Finset.sum_mul]
    rw [Finset.sum_comm]
    refine Finset.sum_congr rfl fun i hi => Finset.sum_congr rfl fun j hj => ?_
    ring
  have hchannel : ∀ c : Fin 3,
      (if aSum (fun j => convPixelF (fun i => F i j) kernel w x) kernel h y ≠ 0 then
        chSum (sel c) (fun j => convPixelF (fun i => F i j) kernel w x) kernel h y /
          aSum (fun j => convPixelF (fun i => F i j) kernel w x) kernel h y
       else chSum (sel c) (fun j => convPixelF (fun i => F i j) kernel w x) kernel h y) =
      (if aSum (fun i => convPixelF (fun j => F i j) kernel h y) kernel w x ≠ 0 then
        chSum (sel c) (fun i => convPixelF (fun j => F i j) kernel h y) kernel w x /
          aSum (fun i => convPixelF (fun j => F i j) kernel h y) kernel w x
       else chSum (sel c) (fun i => convPixelF (fun j => F i j) kernel h y) kernel w x) := by
    intro c
    by_cases hD : (∑ j in window h y (kernel.length - 1),
        aSum (fun i => F i j) kernel w x * kweight kernel y j) = 0
    · have hA1z : aSum (fun j => convPixelF (fun i => F i j) kernel w x) kernel h y = 0 := by
        rw [hA1, hD, zero_div]
      have hA2z : aSum (fun i => convPixelF (fun j => F i j) kernel h y) kernel w x = 0 := by
        rw [hA2, ← hDa, hD, zero_div]
      rw [if_neg (not_not_intro hA1z), if_neg (not_not_intro hA2z),
        chSum_eq_zero (sel c) _ kernel h y hker0 hgeRow hA1z,
        chSum_eq_zero (sel c) _ kernel w x hker0 hgeCol hA2z]
    · have hA1ne : aSum (fun j => convPixelF (fun i => F i j) kernel w x) kernel h y ≠ 0 := by
        rw [hA1]
        exact div_ne_zero hD hsx.ne'
      have hA2ne : aSum (fun i => convPixelF (fun j => F i j) kernel h y) kernel w x ≠ 0 := by
        rw [hA2, ← hDa]
        exact div_ne_zero hD hsy.ne'
      rw [if_pos hA1ne, if_pos hA2ne, hC1 c, hC2 c, hDc c, hA1, hA2, ← hDa,
        div_div_div_same _ _ _ hsx.ne', div_div_div_same _ _ _ hsy.ne']
  rw [convPixelF_eq, convPixelF_eq]
  refine RGBAF.ext ?_ ?_ ?_ ?_
  · have h0 := hchannel 0
    rw [sel_zero] at h0
    exact h0
  · have h1 := hchannel 1
    rw [sel_one] at h1
    exact h1
  · have h2 := hchannel 2
    rw [sel_two] at h2
    exact h2
  · show aSum (fun j => convPixelF (fun i => F i j) kernel w x) kernel h y / wSum kernel h y =
      aSum (fun i => convPixelF (fun j => F i j) kernel h y) kernel w x / wSum kernel w x
    rw [hA1, hA2, ← hDa, div_div, div_div, mul_comm]

/-- The 2x2 image used in the counterexample to claim C8 as stated. -/
def cexImage : NImage :=
  ⟨2, 2, fun x y =>
    if x = 0 then (if y = 0 then ⟨100, 0, 0, 1⟩ else ⟨50, 0, 0, 3⟩)
    else (if y = 0 then ⟨0, 0, 0, 2⟩ else ⟨7, 0, 0, 5⟩)⟩

/-- A kernel with a negative weight at distance 1. -/
noncomputable def cexKernel : List ℝ := [1, -(1 / 2)]

set_option maxHeartbeats 1000000 in
/-- Counterexample to claim C8 as stated: the claim quantifies over every
kernel, but with the kernel [1, -1/2] (which has a negative weight) the
two pass orders disagree in exact real arithmetic on a concrete 2x2
image already at pixel (0,0): vertical-after-horizontal yields red 265
while horizontal-after-vertical yields red -135. -/
theorem c8_counterexample :
    ((blurVerticalF (blurHorizontalF (toFImage cexImage) cexKernel) cexKernel).pix 0 0).r ≠
      ((blurHorizontalF (blurVerticalF (toFImage cexImage) cexKernel) cexKernel).pix 0 0).r := by
  have h1 : ((blurVerticalF (blurHorizontalF (toFImage cexImage) cexKernel) cexKernel).pix 0 0).r
      = 265 := by
    show (convPixelF (fun j => convPixelF (fun i => toF (cexImage.pix i j)) cexKernel 2 0)
        cexKernel 2 0).r = 265
    norm_num [convPixelF, convAccum, convStep, kweight, absint, cexImage, cexKernel, toF]
  have h2 : ((blurHorizontalF (blurVerticalF (toFImage cexImage) cexKernel) cexKernel).pix 0 0).r
      = -135 := by
    show (convPixelF (fun i => convPixelF (fun j => toF (cexImage.pix i j)) cexKernel 2 0)
        cexKernel 2 0).r = -135
    norm_num [convPixelF, convAccum, convStep, kweight, absint, cexImage, cexKernel, toF]
  rw [h1, h2]
  norm_num

/-- Claim C8 (amended): Blur with sigma > 0 runs the horizontal pass
first and the vertical pass second; and for every image and every
nonempty kernel all of whose weights are strictly positive (as are the
Gaussian kernels the Kernel Builder produces), the order of the two 1-D
passes does not change the result over exact real arithmetic before
8-bit quantization: at every in-bounds pixel, vertical-after-horizontal
equals horizontal-after-vertical. -/
theorem c8_pass_order (img : NImage) (sigma : ℝ) (hσ : 0 < sigma)
    (kernel : List ℝ) (hne : kernel ≠ []) (hker : ∀ t ∈ kernel, 0 < t)
    (x y : ℕ) (hx : x < img.w) (hy : y < img.h) :
    Blur img sigma =
      blurVertical (blurHorizontal img (blurKernel sigma)) (blurKernel sigma) ∧
    (blurVerticalF (blurHorizontalF (toFImage img) kernel) kernel).pix x y =
      (blurHorizontalF (blurVerticalF (toFImage img) kernel) kernel).pix x y := by
  constructor
  · unfold Blur
    rw [if_neg (not_le.mpr hσ)]
  · show convPixelF (fun j => convPixelF (fun i => toF (img.pix i j)) kernel img.w x)
        kernel img.h y = _
    exact convPixelF_comm (fun i j => toF (img.pix i j)) kernel hne hker img.w img.h x y
      hx hy (fun i j => by simp [toF])

/-- Witness for the amended claim C8 at a concrete image and the
positive kernel [1, 1/2]. -/
theorem c8_pass_order_witness :
    (0 : ℝ) < 1 ∧ ([(1 : ℝ), 1 / 2] ≠ ([] : List ℝ)) ∧
    (∀ t ∈ [(1 : ℝ), 1 / 2], 0 < t) ∧ 0 < testImg.w ∧ 0 < testImg.h ∧
    (Blur testImg 1 =
      blurVertical (blurHorizontal testImg (blurKernel 1)) (blurKernel 1) ∧
     (blurVerticalF (blurHorizontalF (toFImage testImg) [(1 : ℝ), 1 / 2])
        [(1 : ℝ), 1 / 2]).pix 0 0 =
       (blurHorizontalF (blurVerticalF (toFImage testImg) [(1 : ℝ), 1 / 2])
        [(1 : ℝ), 1 / 2]).pix 0 0) :=
  ⟨by norm_num, by simp, by norm_num, by norm_num [testImg], by norm_num [testImg],
   c8_pass_order testImg 1 (by norm_num) [(1 : ℝ), 1 / 2] (by simp) (by norm_num) 0 0
     (by norm_num [testImg]) (by norm_num [testImg])⟩
